import Mathlib

/-!
Verification of the SageVox converter core (document segmentation and
chunked-synthesis pipeline) against its natural-language specification.

The definitions below are a shallow embedding of the Python sources in
`sagevox_converter/` (`models.py`, `tts_service.py`, `epub_parser.py`,
`cli.py`).  Python strings are Lean `String`s, Python floats are modelled
as rationals `ℚ`, optional values as `Option`, and HTML documents (parsed
`BeautifulSoup` trees) as forests of `Node` values.  Every definition is
translated from the source code; the only spec-side definitions are the
explicitly marked pre-order traversal used as the reference point of the
ToC-flattening refinement claim.
-/

namespace SageVox

set_option maxHeartbeats 1000000

/-! ## Python string primitives

Helpers that model the Python string operations used by the converter:
`\s` character class, `str.split()`, whitespace collapsing via
`re.sub(r"\s+", " ", ...)`, and `str.strip()`.  (Unicode-only whitespace
characters are elided; the converter's regexes are used on ASCII text.) -/

/-- Characters matched by Python's `\s` (ASCII range). -/
def pyWs (c : Char) : Bool :=
  c = ' ' || c = '\t' || c = '\n' || c = '\r' || c = '\x0b' || c = '\x0c'

/-- Splitter behind `wordsOf`: `acc` is the current word, reversed.
(Implemented on character lists so it evaluates inside the kernel.) -/
def splitWsGo : List Char → List Char → List String
  | acc, [] => if acc.isEmpty then [] else [String.mk acc.reverse]
  | acc, c :: rest =>
    if pyWs c then
      (if acc.isEmpty then [] else [String.mk acc.reverse]) ++ splitWsGo [] rest
    else splitWsGo (c :: acc) rest

/-- Model of Python `text.split()`: split on whitespace runs, dropping empties. -/
def wordsOf (s : String) : List String :=
  splitWsGo [] s.data

/-- Python `str.lower()` (ASCII case folding, like the titles handled
here). -/
def pyLower (s : String) : String :=
  String.mk (s.data.map Char.toLower)

/-- Model of `re.sub(r"\s+", " ", text).strip()`: collapse whitespace runs to a
single space and strip the ends. -/
def collapseWs (s : String) : String :=
  String.intercalate " " (wordsOf s)

/-- Model of Python `str.strip()`. -/
def pyStrip (s : String) : String :=
  String.mk (((s.data.dropWhile pyWs).reverse.dropWhile pyWs).reverse)

/-- Python truthiness of an `Optional[str]`: `None` and `""` are falsy. -/
def truthy : Option String → Bool
  | none => false
  | some s => s ≠ ""

/-- Nearest integer to `100 * q`, ties to the even neighbour, computed
directly on numerator and denominator (kept executable down to the
kernel): `f` is the floor of `100 * q` and `r` the nonnegative remainder,
so the fractional part compares to 1/2 as `2 * r` compares to the
denominator. -/
def roundHalfEven100 (q : ℚ) : ℤ :=
  let n := 100 * q.num
  let d := (q.den : ℤ)
  let f := Int.fdiv n d
  let r := n - f * d
  if 2 * r < d then f
  else if d < 2 * r then f + 1
  else if f % 2 = 0 then f else f + 1

/-- Round a rational to two decimal places with ties to even, as
`round(x, 2)` does in `models.py`/`tts_service.py`. -/
def round2 (q : ℚ) : ℚ := mkRat (roundHalfEven100 q) 100

/-! ## Data model (`models.py`) -/

/-- `Chapter` dataclass of `models.py`. -/
structure Chapter where
  number : Nat
  title : String
  text_content : String
  audio_file : Option String := none
  transcript_file : Option String := none
  duration_seconds : ℚ := 0
deriving DecidableEq, Repr, Inhabited

/-- `BookMetadata` dataclass of `models.py`. -/
structure BookMetadata where
  id : String
  title : String
  author : String
  description : String := ""
  narrator_voice : String := "Kore"
  language_code : String := "en-US"
  cover_image : Option String := none
  total_chapters : Nat := 0
  total_duration_seconds : ℚ := 0
  chapters : List Chapter := []
deriving DecidableEq, Repr, Inhabited

/-- The dictionary written for one chapter by `Chapter.to_dict`
(`models.py` lines 19-26): `text_content` is not persisted and
`duration_seconds` is rounded to two decimals. -/
structure ChapterDict where
  number : Nat
  title : String
  audio_file : Option String
  transcript_file : Option String
  duration_seconds : ℚ
deriving DecidableEq, Repr

/-- The dictionary written by `BookMetadata.to_dict` (`models.py` lines
43-55).  `json.dump`/`json.load` of this finite record is modelled as the
identity, so `save` followed by `load` is `fromDict ∘ toDict`. -/
structure BookDict where
  id : String
  title : String
  author : String
  description : String
  narrator_voice : String
  language_code : String
  cover_image : Option String
  total_chapters : Nat
  total_duration_seconds : ℚ
  chapters : List ChapterDict
deriving DecidableEq, Repr

/-- `Chapter.to_dict`. -/
def Chapter.to_dict (c : Chapter) : ChapterDict :=
  { number := c.number
    title := c.title
    audio_file := c.audio_file
    transcript_file := c.transcript_file
    duration_seconds := round2 c.duration_seconds }

/-- `BookMetadata.to_dict` followed by `json.dump`: what
`BookMetadata.save` persists. -/
def BookMetadata.save (m : BookMetadata) : BookDict :=
  { id := m.id
    title := m.title
    author := m.author
    description := m.description
    narrator_voice := m.narrator_voice
    language_code := m.language_code
    cover_image := m.cover_image
    total_chapters := m.total_chapters
    total_duration_seconds := round2 m.total_duration_seconds
    chapters := m.chapters.map Chapter.to_dict }

/-- `BookMetadata.load` (`models.py` lines 63-92) applied to a complete
dictionary (every key that `save` writes is present, so the `.get`
defaults for hand-edited files never fire).  `text_content` is not stored
and is reset to `""`. -/
def BookMetadata.load (d : BookDict) : BookMetadata :=
  { id := d.id
    title := d.title
    author := d.author
    description := d.description
    narrator_voice := d.narrator_voice
    language_code := d.language_code
    cover_image := d.cover_image
    total_chapters := d.total_chapters
    total_duration_seconds := d.total_duration_seconds
    chapters := d.chapters.map (fun ch =>
      { number := ch.number
        title := ch.title
        text_content := ""
        audio_file := ch.audio_file
        transcript_file := ch.transcript_file
        duration_seconds := ch.duration_seconds }) }

/-! ## Metadata merge (`cli.py` lines 186-197)

The `convert` command builds `existing_map = {ch.number: ch for ch in
existing_metadata.chapters}` (later duplicates overwrite earlier ones)
and then, for each freshly assembled chapter, copies `audio_file` and
`duration_seconds` forward when the old chapter's `audio_file` is truthy,
and `transcript_file` when the old chapter's `transcript_file` is truthy.
The merge runs over the full canonical chapter list before any run
selection is applied, so it does not depend on the selection. -/

/-- The dict comprehension `{ch.number: ch for ch in old}`: last chapter
with a given number wins. -/
def existingMap (old : List Chapter) (n : Nat) : Option Chapter :=
  old.foldl (fun acc ch => if ch.number = n then some ch else acc) none

/-- Merge one freshly assembled chapter against the old metadata entry of
the same number, as the in-place mutation in `cli.py` lines 189-197. -/
def mergeChapter (oldc : Option Chapter) (nc : Chapter) : Chapter :=
  match oldc with
  | none => nc
  | some oc =>
    let nc1 := if truthy oc.audio_file then
        { nc with audio_file := oc.audio_file, duration_seconds := oc.duration_seconds }
      else nc
    if truthy oc.transcript_file then { nc1 with transcript_file := oc.transcript_file }
    else nc1

/-- The whole merge loop over `metadata.chapters`. -/
def mergeChapters (newChs oldChs : List Chapter) : List Chapter :=
  newChs.map (fun nc => mergeChapter (existingMap oldChs nc.number) nc)

/-! ## Sentence chunker (`tts_service.py` lines 168-189) -/

/-- `MAX_CHUNK_CHARS` from `tts_service.py`. -/
def maxChunkChars : Nat := 4000

/-- The loop body of `_chunk_sentences`: `cur` is `current_chunk`,
`curLen` is `current_length`. -/
def chunkGo (maxChars : Nat) : List String → List String → Nat → List (List String)
  | [], cur, _ => if cur.isEmpty then [] else [cur]
  | s :: rest, cur, curLen =>
    if maxChars < curLen + s.length + 1 then
      (if cur.isEmpty then [] else [cur]) ++ chunkGo maxChars rest [s] s.length
    else
      chunkGo maxChars rest (cur ++ [s]) (curLen + s.length + 1)

/-- `GeminiTTSService._chunk_sentences`. -/
def chunkSentences (sentences : List String) : List (List String) :=
  chunkGo maxChunkChars sentences [] 0

/-- Character length of a batch: sum of sentence lengths plus one
separator between consecutive sentences. -/
def batchLen : List String → Nat
  | [] => 0
  | [s] => s.length
  | s :: rest => s.length + 1 + batchLen rest

/-! ## Outbound synthesis text (`tts_service.py` lines 192-211) -/

/-- `CONSISTENCY_REMINDER` from `tts_service.py` (the triple-quoted
literal ends with a blank line). -/
def consistencyReminder : String :=
  "[Continue with the same measured pace, warm tone, and natural breathing as before. Do not speed up. Maintain consistent tempo.]\n\n"

/-- The text actually sent to the provider by `_generate_audio`: batch 0
is prefixed with the full style prompt (when it is truthy), later batches
with the consistency reminder. -/
def generateAudioText (text : String) (chunkIndex : Nat) (stylePrompt : String) : String :=
  if chunkIndex = 0 ∧ stylePrompt ≠ "" then stylePrompt ++ "\n\n" ++ text
  else if 0 < chunkIndex then consistencyReminder ++ text
  else text

/-- The `for chunk_idx, sentence_group in enumerate(chunks)` loop of
`synthesize_chapter`, restricted to the outbound text it constructs:
`chunk_text = " ".join(sentence_group)` passed through `_generate_audio`. -/
def chapterOutboundsGo (style : String) : Nat → List (List String) → List String
  | _, [] => []
  | i, g :: rest =>
    generateAudioText (String.intercalate " " g) i style :: chapterOutboundsGo style (i + 1) rest

/-- Outbound texts of all batches of one chapter. -/
def chapterOutbounds (style : String) (chunks : List (List String)) : List String :=
  chapterOutboundsGo style 0 chunks

/-! ## Timestamp estimation (`tts_service.py` lines 241-308)

For each batch the code measures the audio duration from the PCM byte
count (`_audio_duration`), then assigns each sentence a span proportional
to its character share of the batch, advancing a running cursor.  The
provider is external: its per-batch outputs are modelled as a list of
byte counts, one per batch. -/

/-- `Segment` dataclass of `tts_service.py` (the Python field `end` is
spelled `endTime` because `end` is a Lean keyword). -/
structure Segment where
  text : String
  start : ℚ
  endTime : ℚ
deriving DecidableEq, Repr, Inhabited

/-- `_audio_duration`: PCM length in seconds, `bytes / (24000 * 2)`. -/
def audioDuration (numBytes : Nat) : ℚ := (numBytes : ℚ) / (24000 * 2)

/-- Per-sentence estimated duration inside one batch: proportional to the
sentence's character share when the batch has characters, else an even
split over the `len(sentence_group)` sentences. -/
def sdOf (chunkDuration : ℚ) (totalChars groupLen : Nat) (s : String) : ℚ :=
  if 0 < totalChars then chunkDuration * ((s.length : ℚ) / (totalChars : ℚ))
  else chunkDuration / (groupLen : ℚ)

/-- The inner `for sentence in sentence_group` loop of
`synthesize_chapter`: emits one segment per sentence and returns the
advanced cursor. -/
def sentenceSegments (chunkDuration : ℚ) (totalChars groupLen : Nat) :
    List String → ℚ → List Segment × ℚ
  | [], t => ([], t)
  | s :: rest, t =>
    let sd := sdOf chunkDuration totalChars groupLen s
    let r := sentenceSegments chunkDuration totalChars groupLen rest (t + sd)
    (⟨s, t, t + sd⟩ :: r.1, r.2)

/-- The outer `for chunk_idx, sentence_group in enumerate(chunks)` loop:
each pair is a sentence group together with its measured batch duration. -/
def chapterSegments : List (List String × ℚ) → ℚ → List Segment
  | [], _ => []
  | (g, d) :: rest, t =>
    let total := (g.map String.length).sum
    let r := sentenceSegments d total g.length g t
    r.1 ++ chapterSegments rest r.2

/-- Segments produced by `synthesize_chapter` for a chapter whose text
splits into the given sentences, with `byteCounts` the raw PCM sizes the
provider returned per batch. -/
def synthSegments (sentences : List String) (byteCounts : List Nat) : List Segment :=
  chapterSegments
    ((chunkSentences sentences).zip (byteCounts.map audioDuration)) 0

/-! ## HTML document model (`epub_parser.py`)

A parsed document (`BeautifulSoup`) is a forest of nodes: text nodes
(`NavigableString`) and elements with a tag name, an optional `id`
attribute and children.  Extraction-level functions return the ordered
list of text-node strings they collect; the Python code joins them with
`" "` separators and collapses whitespace at the end, which neither adds,
drops nor reorders content. -/

mutual

/-- A node of the parsed HTML tree. -/
inductive Node where
  | text (s : String)
  | elem (tag : String) (id : Option String) (children : Forest)

/-- A forest of sibling nodes (the mutual formulation keeps every
recursive function below structural, hence evaluable in the kernel). -/
inductive Forest where
  | nil
  | cons (n : Node) (f : Forest)

end

/-- Build a forest from a list of nodes (used to write concrete
documents). -/
def Forest.ofList : List Node → Forest
  | [] => .nil
  | n :: rest => .cons n (Forest.ofList rest)

/-- Strings of all text nodes of a forest, in document order (what
`get_text` concatenates). -/
def getTextF : Forest → List String
  | .nil => []
  | .cons (.text s) rest => s :: getTextF rest
  | .cons (.elem _ _ cs) rest => getTextF cs ++ getTextF rest

/-- `tag.get_text(separator=" ")` of a single node, as the list of its
descendant strings. -/
def getTextN (n : Node) : List String := getTextF (.cons n .nil)

/-- Whether some element in the forest (any depth) carries the given id:
`soup.find(id=...) is not None`. -/
def containsIdF (b : String) : Forest → Bool
  | .nil => false
  | .cons (.text _) rest => containsIdF b rest
  | .cons (.elem _ i cs) rest =>
    (if i = some b then true else false) || containsIdF b cs || containsIdF b rest

/-- Whether the node itself or any of its descendants carries the id. -/
def nodeHasId (b : String) : Node → Bool
  | .text _ => false
  | .elem _ i cs => (if i = some b then true else false) || containsIdF b cs

/-- `soup.find(id=anchor)` together with `find_next_siblings()`: the
first element in document (pre-order) order whose id matches, paired with
its following siblings at the level where it was found. -/
def findWithSiblings (a : String) : Forest → Option (Node × Forest)
  | .nil => none
  | .cons (.text _) rest => findWithSiblings a rest
  | .cons (.elem tg i cs) rest =>
    if i = some a then some (.elem tg i cs, rest)
    else
      match findWithSiblings a cs with
      | some r => some r
      | none => findWithSiblings a rest

/-- The sibling walk of `_extract_content_from_anchor` (lines 103-113):
text siblings are skipped (`find_next_siblings()` yields tags only); a
sibling whose id is the next anchor, or that contains the next anchor in
a descendant, stops the walk and is excluded.  Both stop checks are
guarded by the truthiness of `next_anchor_id` (`None` and `""` disable
them). -/
def collectSibs (na : Option String) : Forest → List String
  | .nil => []
  | .cons (.text _) rest => collectSibs na rest
  | .cons (.elem tg i cs) rest =>
    match na with
    | some b =>
      if b ≠ "" ∧ i = some b then []
      else if b ≠ "" ∧ containsIdF b cs then []
      else getTextN (Node.elem tg i cs) ++ collectSibs (some b) rest
    | none => getTextN (Node.elem tg i cs) ++ collectSibs none rest

/-- `_extract_content_from_anchor`, as the ordered list of text-node
strings it collects (the code then joins them and collapses whitespace).
Returns `[]` when the start anchor is absent (the code returns `""`). -/
def extractTextsFromAnchor (doc : Forest) (anchorId : String)
    (nextAnchorId : Option String) : List String :=
  match findWithSiblings anchorId doc with
  | none => []
  | some (start, sibs) => getTextN start ++ collectSibs nextAnchorId sibs

/-- The string `_extract_content_from_anchor` actually returns:
`" ".join(texts)` with whitespace collapsed and stripped. -/
def extractContentFromAnchor (doc : Forest) (anchorId : String)
    (nextAnchorId : Option String) : String :=
  collapseWs (String.intercalate " " (extractTextsFromAnchor doc anchorId nextAnchorId))

/-! ## Linearised document order

To state "content appearing at or after the element with id B" we
linearise a forest into its pre-order token sequence: an `enter` token at
each element's start tag and a `txt` token per text node.  Token order is
document (traversal) order. -/

/-- A token of the linearised document. -/
inductive Tok where
  | enter (id : Option String)
  | txt (s : String)
deriving DecidableEq, Repr

/-- Pre-order linearisation of a forest. -/
def flattenF : Forest → List Tok
  | .nil => []
  | .cons (.text s) rest => .txt s :: flattenF rest
  | .cons (.elem _ i cs) rest => .enter i :: (flattenF cs ++ flattenF rest)

/-- Text-node strings strictly before the first element carrying id `b`
(all of them when no element carries `b`). -/
def textsBefore (b : String) : List Tok → List String
  | [] => []
  | .txt s :: rest => s :: textsBefore b rest
  | .enter i :: rest => if i = some b then [] else textsBefore b rest

/-- Ids of elements strictly before the first element carrying id `a`
(all of them when no element carries `a`).  `b ∉ enterIdsBefore a toks`
states that no element with id `b` starts before the element with id `a`
in traversal order. -/
def enterIdsBefore (a : String) : List Tok → List String
  | [] => []
  | .txt _ :: rest => enterIdsBefore a rest
  | .enter i :: rest =>
    if i = some a then []
    else
      match i with
      | some j => j :: enterIdsBefore a rest
      | none => enterIdsBefore a rest

/-- All ids occurring in a forest, in pre-order. -/
def forestIds : Forest → List String
  | .nil => []
  | .cons (.text _) rest => forestIds rest
  | .cons (.elem _ i cs) rest =>
    (match i with
     | some j => [j]
     | none => []) ++ forestIds cs ++ forestIds rest

/-! ## Text cleaning (`epub_parser.py` lines 121-153)

`clean_text` removes script/style/navigation chrome (and optionally
headings), joins all remaining text with `" "` separators, collapses
whitespace, and applies two punctuation fix-ups:
`re.sub(r"\s+([.,!?;:])", r"\1", text)` and
`re.sub(r"([.!?])\s*([A-Z])", r"\1 \2", text)`. -/

/-- Remove every element (at any depth) whose tag is in `tags`, with its
whole subtree (`element.decompose()`). -/
def removeTags (tags : List String) : Forest → Forest
  | .nil => .nil
  | .cons (.text s) rest => .cons (.text s) (removeTags tags rest)
  | .cons (.elem tg i cs) rest =>
    if tg ∈ tags then removeTags tags rest
    else .cons (.elem tg i (removeTags tags cs)) (removeTags tags rest)

/-- Punctuation characters of the first clean-up regex. -/
def isPunct1 (c : Char) : Bool :=
  c = '.' || c = ',' || c = '!' || c = '?' || c = ';' || c = ':'

/-- Model of `re.sub(r"\s+([.,!?;:])", r"\1", text)`: whenever a
whitespace run is immediately followed by one of the punctuation
characters, the run is dropped.  `pending` holds the whitespace run read
so far, in reverse. -/
def fix1Go : List Char → List Char → List Char
  | pending, [] => pending.reverse
  | pending, c :: rest =>
    if pyWs c then fix1Go (c :: pending) rest
    else if isPunct1 c ∧ pending ≠ [] then c :: fix1Go [] rest
    else pending.reverse ++ c :: fix1Go [] rest

/-- First punctuation clean-up of `clean_text`. -/
def fix1 (s : String) : String := String.mk (fix1Go [] s.data)

/-- Model of `re.sub(r"([.!?])\s*([A-Z])", r"\1 \2", text)`: a sentence
terminator followed (after optional whitespace) by an ASCII capital is
rewritten to terminator, single space, capital; scanning resumes after
the capital.  The state `some (p, ws)` records a terminator `p` read and
the whitespace run `ws` (reversed) read after it; when the next character
is neither whitespace nor a capital, the match attempt fails and
scanning resumes at that character (positions inside the whitespace run
cannot start a match). -/
def fix2Go : Option (Char × List Char) → List Char → List Char
  | none, [] => []
  | some (p, ws), [] => p :: ws.reverse
  | none, c :: rest =>
    if c = '.' ∨ c = '!' ∨ c = '?' then fix2Go (some (c, [])) rest
    else c :: fix2Go none rest
  | some (p, ws), c :: rest =>
    if pyWs c then fix2Go (some (p, c :: ws)) rest
    else if 'A' ≤ c ∧ c ≤ 'Z' then p :: ' ' :: c :: fix2Go none rest
    else if c = '.' ∨ c = '!' ∨ c = '?' then p :: ws.reverse ++ fix2Go (some (c, [])) rest
    else p :: ws.reverse ++ (c :: fix2Go none rest)

/-- Second punctuation clean-up of `clean_text`. -/
def fix2 (s : String) : String := String.mk (fix2Go none s.data)

/-- `clean_text(html_content, exclude_headings)`: the document is the
parsed forest of the raw markup. -/
def cleanText (doc : Forest) (excludeHeadings : Bool) : String :=
  let d1 := removeTags ["script", "style", "nav", "header", "footer"] doc
  let d2 := if excludeHeadings then removeTags ["h1", "h2", "h3", "h4", "h5", "h6"] d1 else d1
  fix2 (fix1 (collapseWs (String.intercalate " " (getTextF d2))))

/-! ## Title pattern matching

The skip/front-matter patterns of `epub_parser.py` and `cli.py` are fixed
regexes used with `re.search` on a lowercased title.  Each is modelled
directly: plain words become substring search, `\s*` separators become
"skip a whitespace run", anchored patterns (`^...$`) become equality, and
`\d+` becomes a digit-run check. -/

/-- Search a position-wise matcher anywhere in the character list. -/
def searchPos (f : List Char → Bool) : List Char → Bool
  | [] => f []
  | c :: rest => f (c :: rest) || searchPos f rest

/-- Substring search (`re.search` of a literal pattern). -/
def containsSub (needle hay : String) : Bool :=
  searchPos (fun cs => needle.data.isPrefixOf cs) hay.data

/-- Match `parts` separated by `\s*` at the head of the character list. -/
def seqMatchAt : List String → List Char → Bool
  | [], _ => true
  | p :: ps, cs =>
    p.data.isPrefixOf cs && seqMatchAt ps ((cs.drop p.data.length).dropWhile pyWs)

/-- `re.search` of a pattern of words separated by `\s*`. -/
def seqSearch (parts : List String) (s : String) : Bool :=
  searchPos (seqMatchAt parts) s.data

/-- Matcher for `transcriber'?s?\s*note` at one position: the literal
word, an optional apostrophe, an optional `s`, optional whitespace, then
`note`. -/
def transcriberAt (cs : List Char) : Bool :=
  if "transcriber".data.isPrefixOf cs then
    let cs1 := cs.drop 11
    let cs2 :=
      match cs1 with
      | c :: rest => if c = Char.ofNat 39 then rest else cs1
      | [] => cs1
    let cs3 :=
      match cs2 with
      | c :: rest => if c = 's' then rest else cs2
      | [] => cs2
    "note".data.isPrefixOf (cs3.dropWhile pyWs)
  else false

/-- Full-string match of `^wrap\d+$`. -/
def isWrapTitle (s : String) : Bool :=
  "wrap".data.isPrefixOf s.data && !(s.data.drop 4).isEmpty && (s.data.drop 4).all Char.isDigit

/-- `_should_skip_toc_entry` (`epub_parser.py` lines 52-58) with the
`SKIP_PATTERNS` list, applied to `title.lower().strip()`. -/
def shouldSkipTocEntry (title : String) : Bool :=
  let t := pyStrip (pyLower title)
  seqSearch ["table", "of", "contents"] t || t == "contents" || t == "toc" ||
  containsSub "copyright" t || t == "cover" ||
  seqSearch ["full", "project", "gutenberg", "license"] t ||
  isWrapTitle t || searchPos transcriberAt t.data

/-- The `front_matter_patterns` classifier of `cli.py` `convert` (lines
143-158), applied to `section.title.lower()`.  (`acknowledgments?` under
`re.search` is equivalent to searching the literal `acknowledgment`.) -/
def isFrontMatterTitle (title : String) : Bool :=
  let t := pyLower title
  seqSearch ["table", "of", "contents"] t || t == "contents" || t == "toc" ||
  containsSub "copyright" t || containsSub "dedication" t ||
  containsSub "acknowledgment" t || seqSearch ["title", "page"] t ||
  seqSearch ["about", "the", "author"] t || seqSearch ["also", "by"] t || t == "cover"

/-! ## Table-of-contents flattener (`epub_parser.py` lines 61-78)

A well-formed outline item is either a plain `Link` (title, href) or a
nested `(Section, children)` tuple whose section itself carries a title
and an href. -/

/-- A well-formed item of a (possibly nested) ePub table of contents. -/
inductive TocItem where
  | link (title href : String)
  | nested (title href : String) (children : List TocItem)

/-- `_flatten_toc`: emit the item's own pair, then recursively flatten
its children, then continue with the remaining items. -/
def flattenToc : List TocItem → List (String × String)
  | [] => []
  | .link t h :: rest => (t, h) :: flattenToc rest
  | .nested t h cs :: rest => (t, h) :: (flattenToc cs ++ flattenToc rest)

mutual

/-- Modelled from the spec: the pre-order traversal of one outline node,
"parent emitted before descending into children". -/
def preorderNode : TocItem → List (String × String)
  | .link t h => [(t, h)]
  | .nested t h cs => (t, h) :: preorderForest cs

/-- Modelled from the spec: pre-order traversal of a list of outline
nodes, left to right. -/
def preorderForest : List TocItem → List (String × String)
  | [] => []
  | x :: rest => preorderNode x ++ preorderForest rest

end

mutual

/-- Number of `(label, reference)` pairs in one outline node. -/
def countNode : TocItem → Nat
  | .link _ _ => 1
  | .nested _ _ cs => 1 + countForest cs

/-- Number of `(label, reference)` pairs in an outline. -/
def countForest : List TocItem → Nat
  | [] => 0
  | x :: rest => countNode x + countForest rest

end

/-! ## Section parsing (`epub_parser.py` lines 172-341)

A flattened ToC entry is modelled after the href has been split on `#`
and URL-decoded (lines 233-240 and 253-259 perform the same split twice):
`file` is the document path and `anchor` the in-document anchor, `""`
when the href has no fragment.  The documents cache maps item names to
parsed forests. -/

/-- One flattened ToC entry with its href already split into document
path and anchor. -/
structure TocEntry where
  title : String
  file : String
  anchor : String
deriving DecidableEq, Repr

/-- `Section` dataclass of `epub_parser.py`; `raw_html` holds the parsed
forest of the document's raw markup. -/
structure Section where
  index : Nat
  name : String
  title : String
  word_count : Nat
  text_content : String
  raw_html : Forest

/-- Python `path.split("/")[-1]` (and `if "/" in path` reduces to the
same thing, since splitting a slash-free string yields the string): the
characters after the last slash. -/
def lastComponent (s : String) : String :=
  String.mk ((s.data.reverse.takeWhile (fun c => c ≠ (Char.ofNat 47))).reverse)

/-- Python `str.endswith`. -/
def strEndsWith (s suffix : String) : Bool :=
  suffix.data.reverse.isPrefixOf s.data.reverse

/-- Document lookup (lines 266-271): first cached document matching by
exact name, name suffix, or basename suffix. -/
def findDocument (documents : List (String × Forest)) (filePath : String) :
    Option (String × Forest) :=
  documents.find? (fun d =>
    d.1 == filePath || strEndsWith d.1 filePath || strEndsWith filePath (lastComponent d.1))

/-- Next-anchor lookup (lines 277-282): among the (toc-index, entry)
pairs that reference the same file, find the one at `tocIdx` and return
the following pair's anchor.  Toc indices come from `enumerate` and are
distinct, so first-match semantics coincide with the Python loop. -/
def nextAnchor (fileEntries : List (Nat × TocEntry)) (tocIdx : Nat) : Option String :=
  match fileEntries with
  | [] => none
  | (idx, _) :: rest =>
    if idx = tocIdx then rest.head?.map (fun p => p.2.anchor)
    else nextAnchor rest tocIdx

/-- One iteration of the per-entry loop of `parse_epub_sections` (lines
247-306): `none` models every `continue` (front/back-matter title,
document not found, fewer than 10 words extracted), `some` the appended
section.  `allEntries` is the full enumerated ToC, from which the
`entries_by_file` grouping is built once over all entries before any
skipping. -/
def entrySection (allEntries : List (Nat × TocEntry))
    (documents : List (String × Forest)) (tocIdx : Nat) (e : TocEntry)
    (sectionIdx : Nat) : Option Section :=
  if shouldSkipTocEntry e.title then none
  else
    match findDocument documents e.file with
    | none => none
    | some d =>
      let na := nextAnchor (allEntries.filter (fun p => p.2.file == e.file)) tocIdx
      let text :=
        if e.anchor ≠ "" then extractContentFromAnchor d.2 e.anchor na
        else cleanText d.2 false
      let wc := (wordsOf text).length
      if wc < 10 then none
      else
        some { index := sectionIdx + 1
               name := lastComponent e.file
               title := e.title
               word_count := wc
               text_content := text
               raw_html := d.2 }

/-- The per-entry loop of `parse_epub_sections`: the third argument is
the remaining worklist and the fourth is `section_idx` (incremented
exactly when a section is appended). -/
def parseLoopGo (allEntries : List (Nat × TocEntry))
    (documents : List (String × Forest)) :
    List (Nat × TocEntry) → Nat → List Section
  | [], _ => []
  | (tocIdx, e) :: rest, sectionIdx =>
    match entrySection allEntries documents tocIdx e sectionIdx with
    | none => parseLoopGo allEntries documents rest sectionIdx
    | some sec => sec :: parseLoopGo allEntries documents rest (sectionIdx + 1)

/-- Pre-order search for the first element with a given tag
(`soup.find(tag)`). -/
def findTagF (tg : String) : Forest → Option Node
  | .nil => none
  | .cons (.text _) rest => findTagF tg rest
  | .cons (.elem t i cs) rest =>
    if t = tg then some (.elem t i cs)
    else
      match findTagF tg cs with
      | some r => some r
      | none => findTagF tg rest

/-- Python `str.title()`: uppercase each letter that follows a
non-letter, lowercase the rest (ASCII letters). -/
def titleCaseGo : Bool → List Char → List Char
  | _, [] => []
  | prevAlpha, c :: rest =>
    (if c.isAlpha then (if prevAlpha then c.toLower else c.toUpper) else c)
      :: titleCaseGo c.isAlpha rest

/-- Python `str.title()`. -/
def pyTitleCase (s : String) : String := String.mk (titleCaseGo false s.data)

/-- `extract_section_title` (lines 156-169): first h1/h2/h3/title whose
stripped text is non-empty and shorter than 150 characters, else the
transformed file name. -/
def extractSectionTitle (forest : Forest) (fallbackName : String) : String :=
  let tryTag := fun (tg : String) =>
    match findTagF tg forest with
    | some n =>
      let t := pyStrip (String.join (getTextN n))
      if t ≠ "" ∧ t.length < 150 then some t else none
    | none => none
  match tryTag "h1" with
  | some t => t
  | none =>
    match tryTag "h2" with
    | some t => t
    | none =>
      match tryTag "h3" with
      | some t => t
      | none =>
        match tryTag "title" with
        | some t => t
        | none =>
          pyTitleCase (((fallbackName.replace ".xhtml" "").replace ".html" "").replace "_" " ")

/-- The fallback file-based parsing (lines 309-332): one section per
document, indices from `enumerate(..., start=1)`. -/
def fallbackSections (documents : List (String × Forest)) : List Section :=
  (documents.enum).map (fun p =>
    let name := lastComponent p.2.1
    let text := cleanText p.2.2 false
    { index := p.1 + 1
      name := name
      title := extractSectionTitle p.2.2 name
      word_count := (wordsOf text).length
      text_content := text
      raw_html := p.2.2 })

/-- `parse_epub_sections`, restricted to the section list it builds (the
metadata and cover extraction are outside every claim). -/
def parseEpubSections (tocEntries : List TocEntry)
    (documents : List (String × Forest)) : List Section :=
  let sections :=
    if tocEntries.isEmpty then []
    else parseLoopGo tocEntries.enum documents tocEntries.enum 0
  if sections.isEmpty then fallbackSections documents else sections

/-! ## Chapter assembly (`epub_parser.py` lines 344-383, `cli.py` lines
140-164) -/

/-- Narration text of a section: re-extracted from the raw markup with
headings removed, or the stored text when headings are kept. -/
def chapterText (s : Section) (excludeHeadings : Bool) : String :=
  if excludeHeadings then cleanText s.raw_html true else s.text_content

/-- The loop of `sections_to_chapters`: `chapter_num` is incremented for
every selected section, then the section is dropped when its narration
text is empty or shorter than 50 characters after stripping. -/
def sectionsToChaptersGo (selected : List Nat) (excludeHeadings : Bool) :
    List Section → Nat → List Chapter
  | [], _ => []
  | s :: rest, chapterNum =>
    if s.index ∈ selected then
      let n := chapterNum + 1
      let t := chapterText s excludeHeadings
      if t = "" ∨ (pyStrip t).length < 50 then
        sectionsToChaptersGo selected excludeHeadings rest n
      else
        { number := n, title := s.title, text_content := t }
          :: sectionsToChaptersGo selected excludeHeadings rest n
    else sectionsToChaptersGo selected excludeHeadings rest chapterNum

/-- `sections_to_chapters`. -/
def sectionsToChapters (sections : List Section) (selectedIndices : List Nat)
    (excludeHeadings : Bool) : List Chapter :=
  sectionsToChaptersGo selectedIndices excludeHeadings sections 0

/-- The canonical content indices computed by `convert` (`cli.py` lines
140-158): every section with at least 100 words whose title does not
match a front-matter pattern, in structural order. -/
def allContentIndices (sections : List Section) : List Nat :=
  (sections.filter (fun s => decide (100 ≤ s.word_count) && !isFrontMatterTitle s.title)).map
    (fun s => s.index)

/-! ## Auxiliary predicates and concrete instances used by the theorems below -/

/-- New chapter of the C2 counterexample: freshly assembled, no bindings. -/
def c2NewChapter : Chapter := { number := 1, title := "t", text_content := "" }

/-- Old chapter of the C2 counterexample: its `audio_file` is non-null
(the empty string) but falsy in Python. -/
def c2OldChapter : Chapter :=
  { number := 1, title := "t", text_content := "", audio_file := some "",
    duration_seconds := 5 }

/-- Witness chapters for C2. -/
def c2wNew : Chapter := { number := 3, title := "n", text_content := "x" }

/-- Witness old chapter for C2. -/
def c2wOld : Chapter :=
  { number := 3, title := "n", text_content := "",
    audio_file := some "chapter-03.mp3",
    transcript_file := some "chapter-03-transcript.json",
    duration_seconds := 7 }

/-- Book of the C9 counterexample: a duration that is not a two-decimal
value. -/
def c9Book : BookMetadata :=
  { id := "b", title := "T", author := "A", total_duration_seconds := mkRat 1 3 }

/-- Witness book for C9: all durations are two-decimal values. -/
def c9wBook : BookMetadata :=
  { id := "b2", title := "T2", author := "A2",
    cover_image := some "cover.jpg",
    total_chapters := 1,
    total_duration_seconds := mkRat 5 4,
    chapters := [{ number := 1, title := "c", text_content := "body",
                   audio_file := some "chapter-01.mp3",
                   transcript_file := some "chapter-01-transcript.json",
                   duration_seconds := mkRat 3 2 }] }

/-- Gap-free chain of segments from cursor `a` to cursor `b`. -/
def segChain : ℚ → List Segment → ℚ → Prop
  | a, [], b => a = b
  | a, s :: rest, b => s.start = a ∧ segChain s.endTime rest b

/-- Whether a token sequence contains an enter token with the given id. -/
def hasEnter (a : String) : List Tok → Bool
  | [] => false
  | .txt _ :: rest => hasEnter a rest
  | .enter i :: rest => (if i = some a then true else false) || hasEnter a rest

/-- Witness document for C5: anchor `B` sits in a later sibling of `A`'s
element. -/
def c5wDoc : Forest :=
  Forest.ofList [Node.elem "div" (some "A") (Forest.ofList [Node.text "x"]),
    Node.elem "p" (some "B") (Forest.ofList [Node.text "y"])]

/-- Witness start element for C5. -/
def c5wStart : Node := Node.elem "div" (some "A") (Forest.ofList [Node.text "x"])

/-- Witness sibling list for C5. -/
def c5wSibs : Forest :=
  Forest.ofList [Node.elem "p" (some "B") (Forest.ofList [Node.text "y"])]

/-- Counterexample document for C5: anchor `B` is nested inside `A`'s own
element. -/
def c5Doc : Forest :=
  Forest.ofList [Node.elem "div" (some "A")
    (Forest.ofList [Node.text "x",
      Node.elem "span" (some "B") (Forest.ofList [Node.text "y"])])]

/-- Witness entry for C7: the anchor `missing` does not occur in the
document. -/
def c7Entry : TocEntry := { title := "Intro", file := "f.xhtml", anchor := "missing" }

/-- Witness document for C7. -/
def c7Doc : String × Forest :=
  ("f.xhtml", Forest.ofList [Node.elem "p" (some "other")
    (Forest.ofList [Node.text "hello world"])])

/-- Witness section for C1: narration text is 60 characters, well above
the 50-character check. -/
def c1wSection : Section :=
  { index := 1, name := "d", title := "Chapter 1", word_count := 100,
    text_content := "aaaaaaaaaaaaaaaaaaaaaaaaaaaaaaaaaaaaaaaaaaaaaaaaaaaaaaaaaaaa",
    raw_html := Forest.nil }

/-- One hundred one-letter words, the body of the C1 counterexample
sections. -/
def c1Words : String := String.intercalate " " (List.replicate 100 "a")

/-- ToC of the C1 counterexample book. -/
def c1Toc : List TocEntry :=
  [{ title := "Chapter 1", file := "doc1.xhtml", anchor := "" },
   { title := "Chapter 2", file := "doc2.xhtml", anchor := "" }]

/-- Documents of the C1 counterexample book: the first chapter's content
sits entirely inside an `h1` heading, so its narration text vanishes when
headings are stripped, while its word count (100) still passes the
canonical classifier. -/
def c1Docs : List (String × Forest) :=
  [("doc1.xhtml", Forest.ofList [Node.elem "h1" none
      (Forest.ofList [Node.text c1Words])]),
   ("doc2.xhtml", Forest.ofList [Node.elem "p" none
      (Forest.ofList [Node.text c1Words])])]

/-- Canonical chapters of the C1 counterexample book. -/
def c1Chapters : List Chapter :=
  sectionsToChapters (parseEpubSections c1Toc c1Docs)
    (allContentIndices (parseEpubSections c1Toc c1Docs)) true

/-! # Theorems -/

/-! ## C6: ToC flattening is pre-order traversal -/

theorem flattenToc_eq_preorderForest (items : List TocItem) :
    flattenToc items = preorderForest items := by
  induction items using flattenToc.induct with
  | case1 => simp [flattenToc, preorderForest]
  | case2 t h rest ih =>
    simp [flattenToc, preorderForest, preorderNode, ih]
  | case3 t h cs rest ih1 ih2 =>
    simp [flattenToc, preorderForest, preorderNode, ih1, ih2]

theorem flattenToc_length (items : List TocItem) :
    (flattenToc items).length = countForest items := by
  induction items using flattenToc.induct with
  | case1 => simp [flattenToc, countForest]
  | case2 t h rest ih =>
    simp [flattenToc, countForest, countNode, ih]
    omega
  | case3 t h cs rest ih1 ih2 =>
    simp [flattenToc, countForest, countNode, ih1, ih2]
    omega

/-- C6: for every well-formed nested outline, `_flatten_toc` returns the
(label, reference) pairs in pre-order traversal order (parent before its
descendants), and an outline with N total (label, reference) pairs at any
nesting depth yields exactly N flattened entries. -/
theorem flattenToc_preorder_and_count (items : List TocItem) :
    flattenToc items = preorderForest items ∧
    (flattenToc items).length = countForest items :=
  ⟨flattenToc_eq_preorderForest items, flattenToc_length items⟩

/-! ## C3: the chunker preserves the sentence sequence and the budget -/

theorem chunkGo_join (m : Nat) (rest : List String) :
    ∀ (cur : List String) (n : Nat), (chunkGo m rest cur n).flatten = cur ++ rest := by
  induction rest with
  | nil =>
    intro cur n
    cases cur <;> simp [chunkGo]
  | cons s rest ih =>
    intro cur n
    by_cases hb : m < n + s.length + 1
    · cases cur <;> simp [chunkGo, hb, ih]
    · simp [chunkGo, hb, ih]

theorem batchLen_append_single (l : List String) (s : String) :
    batchLen (l ++ [s]) ≤ batchLen l + 1 + s.length := by
  induction l with
  | nil => simp [batchLen]
  | cons a t ih =>
    cases t with
    | nil =>
      have e1 : batchLen ([a] ++ [s]) = a.length + 1 + s.length := rfl
      have e2 : batchLen [a] = a.length := rfl
      omega
    | cons b t2 =>
      have e1 : batchLen ((a :: b :: t2) ++ [s]) = a.length + 1 + batchLen ((b :: t2) ++ [s]) := rfl
      have e2 : batchLen (a :: b :: t2) = a.length + 1 + batchLen (b :: t2) := rfl
      omega

theorem chunk_emitted_ok {m n : Nat} {cur : List String} (h1 : batchLen cur ≤ n)
    (h2 : n ≤ m ∨ ∃ x, cur = [x]) :
    batchLen cur ≤ m ∨ ∃ x, cur = [x] ∧ m < x.length := by
  rcases h2 with h2 | ⟨x, hx⟩
  · exact Or.inl (le_trans h1 h2)
  · subst hx
    by_cases hxm : x.length ≤ m
    · exact Or.inl (by simpa [batchLen] using hxm)
    · exact Or.inr ⟨x, rfl, by omega⟩

theorem chunkGo_bound (m : Nat) (rest : List String) :
    ∀ (cur : List String) (n : Nat), batchLen cur ≤ n → (n ≤ m ∨ ∃ x, cur = [x]) →
      ∀ g ∈ chunkGo m rest cur n, batchLen g ≤ m ∨ ∃ x, g = [x] ∧ m < x.length := by
  induction rest with
  | nil =>
    intro cur n h1 h2 g hg
    cases cur with
    | nil => simp [chunkGo] at hg
    | cons c cs =>
      simp [chunkGo] at hg
      subst hg
      exact chunk_emitted_ok h1 h2
  | cons s rest ih =>
    intro cur n h1 h2 g hg
    by_cases hb : m < n + s.length + 1
    · simp only [chunkGo, if_pos hb, List.mem_append] at hg
      rcases hg with hg | hg
      · cases cur with
        | nil => simp at hg
        | cons c cs =>
          simp at hg
          subst hg
          exact chunk_emitted_ok h1 h2
      · exact ih [s] s.length (by simp [batchLen]) (Or.inr ⟨s, rfl⟩) g hg
    · simp only [chunkGo, if_neg hb] at hg
      refine ih (cur ++ [s]) (n + s.length + 1) ?_ (Or.inl (by omega)) g hg
      have := batchLen_append_single cur s
      omega

/-- C3: for every list of sentences, the batches returned by
`_chunk_sentences`, concatenated in order, reproduce the original
sentence sequence exactly, and every batch's character length (sum of its
sentences' lengths plus one separator between consecutive sentences) is
at most the 4000-character budget, except for a batch consisting of a
single sentence that alone exceeds the budget, which is placed alone and
untruncated. -/
theorem chunkSentences_join_and_bound (sentences : List String) :
    (chunkSentences sentences).flatten = sentences ∧
    ∀ g ∈ chunkSentences sentences,
      batchLen g ≤ maxChunkChars ∨ ∃ x, g = [x] ∧ maxChunkChars < x.length := by
  constructor
  · simpa using chunkGo_join maxChunkChars sentences [] 0
  · intro g hg
    exact chunkGo_bound maxChunkChars sentences [] 0 (by simp [batchLen])
      (Or.inl (by simp [maxChunkChars])) g hg

/-- Witness for C3 at a concrete input. -/
theorem chunkSentences_join_and_bound_witness :
    (["Hi.", "There."] ∈ chunkSentences ["Hi.", "There."]) ∧
    (batchLen ["Hi.", "There."] ≤ maxChunkChars ∨
      ∃ x, (["Hi.", "There."] : List String) = [x] ∧ maxChunkChars < x.length) :=
  ⟨by decide,
    (chunkSentences_join_and_bound ["Hi.", "There."]).2 ["Hi.", "There."] (by decide)⟩

/-! ## C8: style prime on batch 0, consistency reminder afterwards -/

theorem chapterOutboundsGo_get? (style : String) (chunks : List (List String)) :
    ∀ (j i : Nat), (chapterOutboundsGo style j chunks).get? i =
      (chunks.get? i).map
        (fun g => generateAudioText (String.intercalate " " g) (j + i) style) := by
  induction chunks with
  | nil => intro j i; simp [chapterOutboundsGo]
  | cons g rest ih =>
    intro j i
    cases i with
    | zero => simp [chapterOutboundsGo]
    | succ k =>
      simp only [chapterOutboundsGo, List.get?_cons_succ]
      rw [ih (j + 1) k]
      simp only [show j + (k + 1) = j + 1 + k from by omega]

/-- C8: for every chapter split into k batches, the outbound text of
batch 0 is the full narrator style prompt concatenated before the batch's
sentences, and for every batch i with 0 < i < k the outbound text is the
pacing-consistency reminder concatenated before that batch's sentences.
The style prompt resolved by `synthesize_chapter` is non-empty (every
preset is, and a custom prompt overrides only when given). -/
theorem chapterOutbounds_prefixes (style : String) (chunks : List (List String))
    (hs : style ≠ "") :
    (chapterOutbounds style chunks).get? 0 =
      (chunks.get? 0).map (fun g => style ++ "\n\n" ++ String.intercalate " " g) ∧
    ∀ i, 0 < i →
      (chapterOutbounds style chunks).get? i =
        (chunks.get? i).map (fun g => consistencyReminder ++ String.intercalate " " g) := by
  constructor
  · rw [chapterOutbounds, chapterOutboundsGo_get?]
    simp [generateAudioText, hs]
  · intro i hi
    rw [chapterOutbounds, chapterOutboundsGo_get?]
    simp [generateAudioText, hi, hi.ne']

/-- Witness for C8 at a concrete input. -/
theorem chapterOutbounds_prefixes_witness :
    (("S" : String) ≠ "") ∧ (0 < 1) ∧
    (chapterOutbounds "S" [["a"], ["b"]]).get? 1 =
      (([["a"], ["b"]] : List (List String)).get? 1).map
        (fun g => consistencyReminder ++ String.intercalate " " g) :=
  ⟨by decide, by decide,
    (chapterOutbounds_prefixes "S" [["a"], ["b"]] (by decide)).2 1 (by decide)⟩

/-! ## C2: the metadata merge carries audio bindings forward -/

/-- C2 counterexample: the claim reads `non-null audio_file`, but the
merge tests Python truthiness (`if old_ch.audio_file:`), so an old
chapter whose `audio_file` is the non-null empty string is not carried
forward — the merged chapter ends with no audio binding at all. -/
theorem mergeChapters_drops_empty_string_binding :
    c2OldChapter.audio_file ≠ none ∧
    (mergeChapters [c2NewChapter] [c2OldChapter]).map (fun c => c.audio_file) = [none] := by
  decide

/-- C2 (amended): for every freshly assembled chapter list and previously
persisted metadata, a new chapter whose number occurs in the old metadata
with a non-empty `audio_file` keeps the old `audio_file` and
`duration_seconds`; it keeps the old `transcript_file` whenever that is a
non-empty string, and keeps its own (for a fresh assembly: none) when the
old transcript binding is absent or empty.  The merge is computed over
the full canonical chapter list — the run's selection is not an input —
so none of this depends on whether the selection includes the chapter,
and a non-empty audio binding is never replaced by an empty one. -/
theorem mergeChapters_preserves_bindings (newChs oldChs : List Chapter) (i : Nat)
    (nc oc : Chapter) (a : String)
    (hn : newChs.get? i = some nc)
    (ho : existingMap oldChs nc.number = some oc)
    (ha : oc.audio_file = some a) (hne : a ≠ "") :
    ∃ mc, (mergeChapters newChs oldChs).get? i = some mc ∧
      mc.number = nc.number ∧ mc.audio_file = some a ∧
      mc.duration_seconds = oc.duration_seconds ∧
      (∀ t, oc.transcript_file = some t → t ≠ "" → mc.transcript_file = some t) ∧
      ((oc.transcript_file = none ∨ oc.transcript_file = some "") →
        mc.transcript_file = nc.transcript_file) := by
  refine ⟨mergeChapter (existingMap oldChs nc.number) nc, ?_, ?_⟩
  · simp only [mergeChapters, List.getElem?_map, List.get?_eq_getElem?] at hn ⊢
    rw [hn]
    rfl
  · rw [ho]
    have haud2 : truthy (some a) = true := by simp [truthy, hne]
    by_cases ht : truthy oc.transcript_file = true
    · have hm : mergeChapter (some oc) nc =
          { nc with audio_file := some a, duration_seconds := oc.duration_seconds,
                    transcript_file := oc.transcript_file } := by
        simp [mergeChapter, ha, haud2, ht]
      rw [hm]
      refine ⟨rfl, rfl, rfl, ?_, ?_⟩
      · intro t htf _
        simp [htf]
      · intro hcase
        rcases hcase with hcase | hcase <;> rw [hcase] at ht <;> simp [truthy] at ht
    · have hm : mergeChapter (some oc) nc =
          { nc with audio_file := some a, duration_seconds := oc.duration_seconds } := by
        simp [mergeChapter, ha, haud2, ht]
      rw [hm]
      refine ⟨rfl, rfl, rfl, ?_, ?_⟩
      · intro t htf hne2
        rw [htf] at ht
        simp [truthy, hne2] at ht
      · intro _
        rfl

/-- Witness for C2 at a concrete input. -/
theorem mergeChapters_preserves_bindings_witness :
    ([c2wNew].get? 0 = some c2wNew) ∧
    (existingMap [c2wOld] c2wNew.number = some c2wOld) ∧
    (c2wOld.audio_file = some "chapter-03.mp3") ∧
    (("chapter-03.mp3" : String) ≠ "") ∧
    (∃ mc, (mergeChapters [c2wNew] [c2wOld]).get? 0 = some mc ∧
      mc.number = c2wNew.number ∧ mc.audio_file = some "chapter-03.mp3" ∧
      mc.duration_seconds = c2wOld.duration_seconds ∧
      (∀ t, c2wOld.transcript_file = some t → t ≠ "" → mc.transcript_file = some t) ∧
      ((c2wOld.transcript_file = none ∨ c2wOld.transcript_file = some "") →
        mc.transcript_file = c2wNew.transcript_file)) :=
  ⟨by decide, by decide, by decide, by decide,
    mergeChapters_preserves_bindings [c2wNew] [c2wOld] 0 c2wNew c2wOld "chapter-03.mp3"
      (by decide) (by decide) (by decide) (by decide)⟩

/-! ## C9: the metadata file round-trips -/

/-- C9 counterexample: `to_dict` persists durations with `round(x, 2)`,
so a `BookMetadata` whose `total_duration_seconds` is 1/3 loads back as
0.33 — the round trip is not lossless for that persisted field. -/
theorem save_load_loses_precision :
    (BookMetadata.load (BookMetadata.save c9Book)).total_duration_seconds ≠
      c9Book.total_duration_seconds := by
  decide

/-- C9 (amended): save followed by load preserves every persisted field
(id, title, author, description, narrator_voice, language_code,
cover_image, total_chapters, total_duration_seconds, and per chapter
number, title, audio_file, transcript_file, duration_seconds) whenever
the durations are already two-decimal values (as every duration the
pipeline itself persists is, being written through `round(x, 2)`);
chapter `text_content` is not persisted and loads back empty.  For other
duration values the loaded duration is the two-decimal rounding. -/
theorem save_load_roundtrip (m : BookMetadata)
    (h1 : round2 m.total_duration_seconds = m.total_duration_seconds)
    (h2 : ∀ c ∈ m.chapters, round2 c.duration_seconds = c.duration_seconds) :
    BookMetadata.load (BookMetadata.save m) =
      { m with chapters := m.chapters.map (fun c => { c with text_content := "" }) } := by
  obtain ⟨id, title, author, desc, voice, lang, cover, tot, totdur, chs⟩ := m
  unfold BookMetadata.save BookMetadata.load
  simp only at *
  congr 1
  rw [List.map_map]
  apply List.map_congr_left
  intro c hc
  have hd := h2 c hc
  cases c
  simp_all [Chapter.to_dict, Function.comp]

/-- Witness for C9 at a concrete input. -/
theorem save_load_roundtrip_witness :
    (round2 c9wBook.total_duration_seconds = c9wBook.total_duration_seconds) ∧
    (∀ c ∈ c9wBook.chapters, round2 c.duration_seconds = c.duration_seconds) ∧
    BookMetadata.load (BookMetadata.save c9wBook) =
      { c9wBook with
          chapters := c9wBook.chapters.map (fun c => { c with text_content := "" }) } :=
  ⟨by decide, by decide, save_load_roundtrip c9wBook (by decide) (by decide)⟩

/-! ## C4: segments partition the chapter duration

`segChain a segs b` states that the segment list forms a gap-free chain
of spans from cursor `a` to cursor `b`: the first segment starts at `a`,
each segment's end is the next segment's start, and the last segment ends
at `b`. -/

theorem sentenceSegments_snd (d : ℚ) (tot k : Nat) (g : List String) :
    ∀ t, (sentenceSegments d tot k g t).2 = t + (g.map (sdOf d tot k)).sum := by
  induction g with
  | nil => intro t; simp [sentenceSegments]
  | cons s rest ih =>
    intro t
    simp only [sentenceSegments, ih (t + sdOf d tot k s), List.map_cons, List.sum_cons]
    ring

theorem sum_map_mul_left_q (c : ℚ) (f : String → ℚ) (l : List String) :
    (l.map (fun s => c * f s)).sum = c * (l.map f).sum := by
  induction l with
  | nil => simp
  | cons a t ih => simp [ih]; ring

theorem sum_map_const_q (c : ℚ) (l : List String) :
    (l.map (fun _ => c)).sum = l.length * c := by
  induction l with
  | nil => simp
  | cons a t ih => simp [ih]; ring

theorem natCast_sum_lengths (g : List String) :
    (((g.map String.length).sum : Nat) : ℚ) = (g.map (fun s => (s.length : ℚ))).sum := by
  induction g with
  | nil => simp
  | cons a t ih => simp [List.sum_cons, Nat.cast_add, ih]

/-- The per-sentence proportional durations of one batch sum exactly to
the batch's measured duration. -/
theorem sdOf_sum (d : ℚ) (g : List String) (hg : g ≠ []) :
    (g.map (sdOf d ((g.map String.length).sum) g.length)).sum = d := by
  by_cases htot : 0 < (g.map String.length).sum
  · have hTne : (g.map (fun s => (s.length : ℚ))).sum ≠ 0 := by
      rw [← natCast_sum_lengths]
      exact_mod_cast Nat.pos_iff_ne_zero.mp htot
    have h1 : ∀ s ∈ g, sdOf d ((g.map String.length).sum) g.length s =
        (d / (g.map (fun s => (s.length : ℚ))).sum) * (s.length : ℚ) := by
      intro s _
      simp only [sdOf]
      rw [if_pos htot, natCast_sum_lengths]
      ring
    rw [List.map_congr_left h1, sum_map_mul_left_q]
    exact div_mul_cancel₀ d hTne
  · have h1 : ∀ s ∈ g, sdOf d ((g.map String.length).sum) g.length s =
        d / (g.length : ℚ) := by
      intro s _
      simp only [sdOf]
      rw [if_neg htot]
    rw [List.map_congr_left h1, sum_map_const_q]
    have hk : (g.length : ℚ) ≠ 0 := by
      have hpos := List.length_pos.mpr hg
      exact_mod_cast Nat.pos_iff_ne_zero.mp hpos
    rw [mul_comm]
    exact div_mul_cancel₀ d hk

theorem sentenceSegments_chain (d : ℚ) (tot k : Nat) (g : List String) :
    ∀ t, segChain t (sentenceSegments d tot k g t).1 (sentenceSegments d tot k g t).2 := by
  induction g with
  | nil => intro t; simp [sentenceSegments, segChain]
  | cons s rest ih =>
    intro t
    exact ⟨rfl, ih (t + sdOf d tot k s)⟩

theorem segChain_append {l1 l2 : List Segment} {a mid b : ℚ}
    (h1 : segChain a l1 mid) (h2 : segChain mid l2 b) : segChain a (l1 ++ l2) b := by
  induction l1 generalizing a with
  | nil =>
    have : a = mid := h1
    subst this
    simpa using h2
  | cons s t ih => exact ⟨h1.1, ih h1.2⟩

/-- The outer loop chains all batches together: the final cursor is the
initial one plus the sum of the batch durations. -/
theorem chapterSegments_chain (pairs : List (List String × ℚ))
    (hne : ∀ p ∈ pairs, p.1 ≠ []) :
    ∀ t, segChain t (chapterSegments pairs t) (t + (pairs.map (fun p => p.2)).sum) := by
  induction pairs with
  | nil => intro t; simp [chapterSegments, segChain]
  | cons p rest ih =>
    intro t
    obtain ⟨g, d⟩ := p
    have hg : g ≠ [] := hne (g, d) (by simp)
    have hsnd : (sentenceSegments d ((g.map String.length).sum) g.length g t).2 = t + d := by
      rw [sentenceSegments_snd, sdOf_sum d g hg]
    have hch1 := sentenceSegments_chain d ((g.map String.length).sum) g.length g t
    rw [hsnd] at hch1
    have hch2 := ih (fun q hq => hne q (by simp [hq])) (t + d)
    have := segChain_append hch1 hch2
    simp only [chapterSegments, hsnd, List.map_cons, List.sum_cons]
    rw [← add_assoc]
    exact this

theorem segChain_head {a b : ℚ} {s : Segment} {l : List Segment}
    (h : segChain a (s :: l) b) : s.start = a := h.1

theorem segChain_get? {l : List Segment} :
    ∀ {a b : ℚ}, segChain a l b →
      ∀ i s1 s2, l.get? i = some s1 → l.get? (i + 1) = some s2 → s2.start = s1.endTime := by
  induction l with
  | nil =>
    intro a b _ i s1 s2 h1
    simp at h1
  | cons s t ih =>
    intro a b h i s1 s2 h1 h2
    cases i with
    | zero =>
      simp at h1
      subst h1
      cases t with
      | nil => simp at h2
      | cons u t2 =>
        simp at h2
        subst h2
        exact h.2.1
    | succ j =>
      exact ih h.2 j s1 s2 (by simpa using h1) (by simpa using h2)

theorem segChain_getLast {l : List Segment} :
    ∀ {a b : ℚ}, segChain a l b → ∀ s, l.getLast? = some s → s.endTime = b := by
  induction l with
  | nil =>
    intro a b _ s hs
    simp at hs
  | cons x t ih =>
    intro a b h s hs
    cases t with
    | nil =>
      simp at hs
      subst hs
      exact h.2
    | cons y t2 =>
      rw [List.getLast?_cons_cons] at hs
      exact ih h.2 s hs

theorem sdOf_nonneg {d : ℚ} (hd : 0 ≤ d) (tot k : Nat) (s : String) :
    0 ≤ sdOf d tot k s := by
  unfold sdOf
  split
  · apply mul_nonneg hd
    positivity
  · apply div_nonneg hd
    positivity

theorem sentenceSegments_start_le {d : ℚ} (hd : 0 ≤ d) (tot k : Nat) (g : List String) :
    ∀ t s, s ∈ (sentenceSegments d tot k g t).1 → s.start ≤ s.endTime := by
  induction g with
  | nil =>
    intro t s hs
    simp [sentenceSegments] at hs
  | cons x rest ih =>
    intro t s hs
    simp only [sentenceSegments, List.mem_cons] at hs
    rcases hs with hs | hs
    · subst hs
      have := sdOf_nonneg hd tot k x
      simp only
      linarith
    · exact ih _ s hs

theorem chapterSegments_start_le (pairs : List (List String × ℚ))
    (hd : ∀ p ∈ pairs, 0 ≤ p.2) :
    ∀ t s, s ∈ chapterSegments pairs t → s.start ≤ s.endTime := by
  induction pairs with
  | nil =>
    intro t s hs
    simp [chapterSegments] at hs
  | cons p rest ih =>
    intro t s hs
    obtain ⟨g, d⟩ := p
    simp only [chapterSegments, List.mem_append] at hs
    rcases hs with hs | hs
    · exact sentenceSegments_start_le (hd (g, d) (by simp)) _ _ g t s hs
    · exact ih (fun q hq => hd q (by simp [hq])) _ s hs

theorem chapterSegments_ne_nil (p : List String × ℚ) (rest : List (List String × ℚ))
    (hp : p.1 ≠ []) (t : ℚ) : chapterSegments (p :: rest) t ≠ [] := by
  obtain ⟨g, d⟩ := p
  cases g with
  | nil => simp at hp
  | cons x g2 =>
    simp [chapterSegments, sentenceSegments]

theorem chunkGo_ne_nil (m : Nat) (rest : List String) :
    ∀ cur n, (rest ≠ [] ∨ cur ≠ []) → chunkGo m rest cur n ≠ [] := by
  induction rest with
  | nil =>
    intro cur n h
    rcases h with h | h
    · exact absurd rfl h
    · cases cur with
      | nil => exact absurd rfl h
      | cons c cs => simp [chunkGo]
  | cons s rest ih =>
    intro cur n _
    by_cases hb : m < n + s.length + 1
    · simp only [chunkGo, if_pos hb]
      intro hcontra
      rcases List.append_eq_nil.mp hcontra with ⟨_, h2⟩
      exact ih [s] s.length (Or.inr (by simp)) h2
    · simp only [chunkGo, if_neg hb]
      exact ih (cur ++ [s]) (n + s.length + 1) (Or.inr (by simp))

theorem chunkGo_mem_ne_nil (m : Nat) (rest : List String) :
    ∀ cur n g, g ∈ chunkGo m rest cur n → g ≠ [] := by
  induction rest with
  | nil =>
    intro cur n g hg
    cases cur with
    | nil => simp [chunkGo] at hg
    | cons c cs =>
      simp [chunkGo] at hg
      subst hg
      simp
  | cons s rest ih =>
    intro cur n g hg
    by_cases hb : m < n + s.length + 1
    · simp only [chunkGo, if_pos hb, List.mem_append] at hg
      rcases hg with hg | hg
      · cases cur with
        | nil => simp at hg
        | cons c cs =>
          simp at hg
          subst hg
          simp
      · exact ih [s] s.length g hg
    · simp only [chunkGo, if_neg hb] at hg
      exact ih (cur ++ [s]) (n + s.length + 1) g hg

theorem map_snd_zip_of_length_eq {α β : Type} :
    ∀ (l2 : List β) (l1 : List α), l1.length = l2.length →
      (l1.zip l2).map Prod.snd = l2 := by
  intro l2
  induction l2 with
  | nil =>
    intro l1 h
    cases l1 with
    | nil => simp
    | cons a t => simp at h
  | cons b t2 ih =>
    intro l1 h
    cases l1 with
    | nil => simp at h
    | cons a t1 =>
      simp only [List.zip_cons_cons, List.map_cons]
      rw [ih t1 (by simpa using h)]

theorem mem_zip_parts {α β : Type} :
    ∀ (l1 : List α) (l2 : List β) (p : α × β), p ∈ l1.zip l2 → p.1 ∈ l1 ∧ p.2 ∈ l2 := by
  intro l1
  induction l1 with
  | nil =>
    intro l2 p hp
    simp at hp
  | cons a t1 ih =>
    intro l2 p hp
    cases l2 with
    | nil => simp at hp
    | cons b t2 =>
      simp only [List.zip_cons_cons, List.mem_cons] at hp
      rcases hp with hp | hp
      · subst hp
        simp
      · have := ih t2 p hp
        exact ⟨List.mem_cons_of_mem _ this.1, List.mem_cons_of_mem _ this.2⟩

theorem sum_map_audioDuration (l : List Nat) :
    (l.map audioDuration).sum = audioDuration l.sum := by
  induction l with
  | nil => simp [audioDuration]
  | cons a t ih =>
    simp only [List.map_cons, List.sum_cons, List.sum_cons, ih, audioDuration]
    push_cast
    ring

/-- C4: for every synthesized chapter (any non-empty sentence list and
any per-batch audio byte counts, one per batch), the segments produced by
`synthesize_chapter` partition `[0, duration]`: the list is non-empty,
the first segment starts at 0, every segment has `start ≤ end`, each
segment's end equals the next segment's start, and the last segment's end
equals the chapter's total duration `total bytes / (24000 * 2)` — exactly
over the rationals, hence within any rounding tolerance. -/
theorem synthSegments_partition (sentences : List String) (byteCounts : List Nat)
    (h1 : sentences ≠ [])
    (h2 : byteCounts.length = (chunkSentences sentences).length) :
    synthSegments sentences byteCounts ≠ [] ∧
    (∀ s, (synthSegments sentences byteCounts).head? = some s → s.start = 0) ∧
    (∀ i s1 s2, (synthSegments sentences byteCounts).get? i = some s1 →
      (synthSegments sentences byteCounts).get? (i + 1) = some s2 →
      s2.start = s1.endTime) ∧
    (∀ s, (synthSegments sentences byteCounts).getLast? = some s →
      s.endTime = audioDuration byteCounts.sum) ∧
    (∀ s ∈ synthSegments sentences byteCounts, s.start ≤ s.endTime) := by
  have hlen : (byteCounts.map audioDuration).length = (chunkSentences sentences).length := by
    simpa using h2
  have hnep : ∀ p ∈ (chunkSentences sentences).zip (byteCounts.map audioDuration),
      p.1 ≠ [] := by
    intro p hp
    have := mem_zip_parts _ _ p hp
    exact chunkGo_mem_ne_nil maxChunkChars sentences [] 0 p.1 this.1
  have hdpos : ∀ p ∈ (chunkSentences sentences).zip (byteCounts.map audioDuration),
      0 ≤ p.2 := by
    intro p hp
    have hmem := (mem_zip_parts _ _ p hp).2
    obtain ⟨b, _, hb⟩ := List.mem_map.mp hmem
    rw [← hb]
    unfold audioDuration
    positivity
  have hsum : (((chunkSentences sentences).zip (byteCounts.map audioDuration)).map
      (fun p => p.2)).sum = audioDuration byteCounts.sum := by
    have hz : (((chunkSentences sentences).zip (byteCounts.map audioDuration)).map
        (fun p => p.2)) = byteCounts.map audioDuration :=
      map_snd_zip_of_length_eq (byteCounts.map audioDuration)
        (chunkSentences sentences) hlen.symm
    rw [hz, sum_map_audioDuration]
  have hchain : segChain 0 (synthSegments sentences byteCounts)
      (audioDuration byteCounts.sum) := by
    have := chapterSegments_chain _ hnep 0
    rw [hsum] at this
    simpa [synthSegments] using this
  have hne : synthSegments sentences byteCounts ≠ [] := by
    unfold synthSegments
    cases hch : chunkSentences sentences with
    | nil => exact absurd hch (chunkGo_ne_nil maxChunkChars sentences [] 0 (Or.inl h1))
    | cons c cs =>
      cases hbc : byteCounts.map audioDuration with
      | nil =>
        rw [hch] at hlen
        rw [hbc] at hlen
        simp at hlen
      | cons b bs =>
        simp only [List.zip_cons_cons]
        apply chapterSegments_ne_nil
        have : c ∈ chunkSentences sentences := by rw [hch]; simp
        exact chunkGo_mem_ne_nil maxChunkChars sentences [] 0 c this
  refine ⟨hne, ?_, ?_, ?_, ?_⟩
  · intro s hs
    cases hsegs : synthSegments sentences byteCounts with
    | nil => rw [hsegs] at hs; simp at hs
    | cons x t =>
      rw [hsegs] at hs
      simp at hs
      subst hs
      rw [hsegs] at hchain
      exact segChain_head hchain
  · intro i s1 s2 hs1 hs2
    exact segChain_get? hchain i s1 s2 hs1 hs2
  · intro s hs
    exact segChain_getLast hchain s hs
  · intro s hs
    exact chapterSegments_start_le _ hdpos 0 s (by simpa [synthSegments] using hs)

/-! ## C5: extraction never reaches past the next anchor

The amended C5 states: when the next anchor `b` is neither the start
element itself nor nested inside it, and no element with id `b` starts
before the element with id `a` in traversal order, the extracted text
sequence is a sublist of the text nodes strictly before `b`'s element.
The counterexample shows the claim fails as stated when `b` is nested
inside the start element. -/

theorem textsBefore_flatten_append (b : String) (l : Forest) :
    containsIdF b l = false →
    ∀ X, textsBefore b (flattenF l ++ X) = getTextF l ++ textsBefore b X := by
  induction l using getTextF.induct with
  | case1 => intro _ X; simp [flattenF, getTextF]
  | case2 s rest ih =>
    intro hno X
    simp only [containsIdF] at hno
    simp only [flattenF, getTextF, List.cons_append, List.append_eq, textsBefore]
    rw [ih hno X]
  | case3 tg i cs rest ih1 ih2 =>
    intro hno X
    simp only [containsIdF, Bool.or_eq_false_iff] at hno
    obtain ⟨⟨hib, hcs⟩, hrest⟩ := hno
    have hib' : ¬(i = some b) := by
      intro hc
      rw [hc] at hib
      simp at hib
    simp only [flattenF, getTextF, List.cons_append, List.append_eq, List.append_assoc,
      textsBefore, if_neg hib']
    rw [ih1 hcs (flattenF rest ++ X), ih2 hrest X]

theorem textsBefore_append_sublist (b : String) (X Y : List Tok) :
    List.Sublist (textsBefore b X) (textsBefore b (X ++ Y)) := by
  induction X with
  | nil =>
    simp only [textsBefore, List.nil_append]
    exact List.nil_sublist _
  | cons tk rest ih =>
    cases tk with
    | txt s =>
      simp only [List.cons_append, textsBefore]
      exact ih.cons₂ s
    | enter i =>
      by_cases hi : i = some b
      · simp [textsBefore, hi]
      · simp only [List.cons_append, textsBefore, if_neg hi]
        exact ih

theorem findWithSiblings_none (a : String) (l : Forest) :
    findWithSiblings a l = none → containsIdF a l = false := by
  induction l using getTextF.induct with
  | case1 => intro _; rfl
  | case2 s rest ih =>
    intro h
    simp only [findWithSiblings] at h
    simp only [containsIdF]
    exact ih h
  | case3 tg i cs rest ih1 ih2 =>
    intro h
    simp only [findWithSiblings] at h
    by_cases hi : i = some a
    · rw [if_pos hi] at h
      simp at h
    · rw [if_neg hi] at h
      cases hcs : findWithSiblings a cs with
      | some r =>
        rw [hcs] at h
        simp at h
      | none =>
        rw [hcs] at h
        dsimp only at h
        simp [containsIdF, hi, ih1 hcs, ih2 h]

theorem findWithSiblings_some_contains (a : String) (l : Forest) :
    ∀ r, findWithSiblings a l = some r → containsIdF a l = true := by
  induction l using getTextF.induct with
  | case1 =>
    intro r h
    simp [findWithSiblings] at h
  | case2 s rest ih =>
    intro r h
    simp only [findWithSiblings] at h
    simp only [containsIdF]
    exact ih r h
  | case3 tg i cs rest ih1 ih2 =>
    intro r h
    simp only [findWithSiblings] at h
    by_cases hi : i = some a
    · simp [containsIdF, hi]
    · rw [if_neg hi] at h
      cases hcs : findWithSiblings a cs with
      | some r2 => simp [containsIdF, ih1 r2 hcs]
      | none =>
        rw [hcs] at h
        dsimp only at h
        simp [containsIdF, ih2 r h]

theorem findWithSiblings_isSome (a : String) (l : Forest) :
    findWithSiblings a l ≠ none → containsIdF a l = true := by
  intro h
  cases hf : findWithSiblings a l with
  | none => exact absurd hf h
  | some r => exact findWithSiblings_some_contains a l r hf

theorem mem_forestIds (b : String) (l : Forest) :
    b ∈ forestIds l ↔ containsIdF b l = true := by
  induction l using getTextF.induct with
  | case1 => simp [forestIds, containsIdF]
  | case2 s rest ih => simp [forestIds, containsIdF, ih]
  | case3 tg i cs rest ih1 ih2 =>
    cases i with
    | none => simp [forestIds, containsIdF, ih1, ih2]
    | some j =>
      by_cases hj : j = b
      · subst hj
        simp [forestIds, containsIdF]
      · simp [forestIds, containsIdF, ih1, ih2, hj, Ne.symm hj]

theorem enterIdsBefore_flatten_append (a : String) (l : Forest) :
    containsIdF a l = false →
    ∀ X, enterIdsBefore a (flattenF l ++ X) = forestIds l ++ enterIdsBefore a X := by
  induction l using getTextF.induct with
  | case1 => intro _ X; simp [flattenF, forestIds, enterIdsBefore]
  | case2 s rest ih =>
    intro hno X
    simp only [containsIdF] at hno
    simp only [flattenF, forestIds, List.cons_append, List.append_eq, enterIdsBefore]
    exact ih hno X
  | case3 tg i cs rest ih1 ih2 =>
    intro hno X
    simp only [containsIdF, Bool.or_eq_false_iff] at hno
    obtain ⟨⟨hia, hcs⟩, hrest⟩ := hno
    have hia' : ¬(i = some a) := by
      intro hc
      rw [hc] at hia
      simp at hia
    simp only [flattenF, forestIds, List.cons_append, List.append_eq, List.append_assoc,
      enterIdsBefore, if_neg hia']
    cases i with
    | none =>
      dsimp only
      simp only [List.nil_append]
      rw [ih1 hcs (flattenF rest ++ X), ih2 hrest X]
    | some j =>
      dsimp only
      simp only [List.cons_append]
      rw [ih1 hcs (flattenF rest ++ X), ih2 hrest X]
      simp

theorem hasEnter_append (a : String) (T U : List Tok) :
    hasEnter a (T ++ U) = (hasEnter a T || hasEnter a U) := by
  induction T with
  | nil => simp [hasEnter]
  | cons tk rest ih =>
    cases tk with
    | txt s => simp [hasEnter, ih]
    | enter i => simp [hasEnter, ih, Bool.or_assoc]

theorem hasEnter_flattenF (a : String) (l : Forest) :
    hasEnter a (flattenF l) = containsIdF a l := by
  induction l using getTextF.induct with
  | case1 => rfl
  | case2 s rest ih => simp [flattenF, hasEnter, containsIdF, ih]
  | case3 tg i cs rest ih1 ih2 =>
    simp [flattenF, hasEnter, containsIdF, hasEnter_append, ih1, ih2, Bool.or_assoc]

theorem enterIdsBefore_append_of_hasEnter (a : String) (T : List Tok)
    (h : hasEnter a T = true) (X : List Tok) :
    enterIdsBefore a (T ++ X) = enterIdsBefore a T := by
  induction T with
  | nil => simp [hasEnter] at h
  | cons tk rest ih =>
    cases tk with
    | txt s =>
      simp only [hasEnter] at h
      simp only [List.cons_append, enterIdsBefore]
      exact ih h
    | enter i =>
      by_cases hi : i = some a
      · simp [enterIdsBefore, hi]
      · simp only [hasEnter, if_neg hi, Bool.false_or] at h
        simp only [List.cons_append, enterIdsBefore, if_neg hi]
        cases i with
        | none =>
          dsimp only
          simp only [List.append_eq]
          exact ih h
        | some j =>
          dsimp only
          simp only [List.append_eq]
          rw [ih h]

theorem collectSibs_sublist (b : String) (hb : b ≠ "") (sibs : Forest) :
    List.Sublist (collectSibs (some b) sibs) (textsBefore b (flattenF sibs)) := by
  induction sibs using getTextF.induct with
  | case1 =>
    simp only [collectSibs, flattenF, textsBefore]
    exact List.nil_sublist _
  | case2 s rest ih =>
    simp only [collectSibs, flattenF, textsBefore]
    exact ih.cons s
  | case3 tg i cs rest ih1 ih2 =>
    simp only [collectSibs]
    by_cases h1 : i = some b
    · rw [if_pos ⟨hb, h1⟩]
      exact List.nil_sublist _
    · by_cases h2 : containsIdF b cs = true
      · rw [if_neg (fun hc => h1 hc.2), if_pos ⟨hb, h2⟩]
        exact List.nil_sublist _
      · rw [if_neg (fun hc => h1 hc.2), if_neg (fun hc => h2 hc.2)]
        have hcs : containsIdF b cs = false := by
          cases hc : containsIdF b cs with
          | true => exact absurd hc h2
          | false => rfl
        simp only [flattenF, textsBefore, if_neg h1]
        rw [textsBefore_flatten_append b cs hcs (flattenF rest)]
        have hgt : getTextN (Node.elem tg i cs) = getTextF cs := by
          simp [getTextN, getTextF]
        rw [hgt]
        exact ih2.append_left _

theorem extract_before_next (a b : String) (hb : b ≠ "") (doc : Forest) :
    ∀ start sibs,
      findWithSiblings a doc = some (start, sibs) →
      nodeHasId b start = false →
      b ∉ enterIdsBefore a (flattenF doc) →
      List.Sublist (getTextN start ++ collectSibs (some b) sibs)
        (textsBefore b (flattenF doc)) := by
  induction doc using getTextF.induct with
  | case1 =>
    intro start sibs hfind _ _
    simp [findWithSiblings] at hfind
  | case2 s rest ih =>
    intro start sibs hfind hnot hbef
    simp only [findWithSiblings] at hfind
    simp only [flattenF, enterIdsBefore] at hbef
    simp only [flattenF, textsBefore]
    exact (ih start sibs hfind hnot hbef).cons s
  | case3 tg i cs rest ih1 ih2 =>
    intro start sibs hfind hnot hbef
    simp only [findWithSiblings] at hfind
    by_cases hia : i = some a
    · rw [if_pos hia] at hfind
      simp only [Option.some.injEq, Prod.mk.injEq] at hfind
      obtain ⟨hstart, hsibs⟩ := hfind
      subst hstart
      subst hsibs
      simp only [nodeHasId, Bool.or_eq_false_iff] at hnot
      obtain ⟨hib, hcsb⟩ := hnot
      have hib' : ¬(i = some b) := by
        intro hc
        rw [hc] at hib
        simp at hib
      simp only [flattenF, textsBefore, if_neg hib']
      rw [textsBefore_flatten_append b cs hcsb (flattenF rest)]
      have hgt : getTextN (Node.elem tg i cs) = getTextF cs := by
        simp [getTextN, getTextF]
      rw [hgt]
      exact (collectSibs_sublist b hb rest).append_left _
    · rw [if_neg hia] at hfind
      have hbef' : b ∉ enterIdsBefore a (flattenF cs ++ flattenF rest) ∧ ¬(i = some b) := by
        simp only [flattenF, enterIdsBefore, if_neg hia] at hbef
        cases i with
        | none => exact ⟨hbef, fun hc => Option.noConfusion hc⟩
        | some j =>
          simp only [List.mem_cons] at hbef
          push_neg at hbef
          refine ⟨hbef.2, ?_⟩
          intro hc
          injection hc with hc2
          exact hbef.1 hc2.symm
      obtain ⟨hbef2, hib'⟩ := hbef'
      cases hcs : findWithSiblings a cs with
      | some r =>
        rw [hcs] at hfind
        dsimp only at hfind
        simp only [Option.some.injEq] at hfind
        subst hfind
        have hhas : hasEnter a (flattenF cs) = true := by
          rw [hasEnter_flattenF]
          exact findWithSiblings_isSome a cs (by simp [hcs])
        rw [enterIdsBefore_append_of_hasEnter a (flattenF cs) hhas (flattenF rest)] at hbef2
        have hsub := ih1 start sibs hcs hnot hbef2
        simp only [flattenF, textsBefore, if_neg hib']
        exact hsub.trans (textsBefore_append_sublist b (flattenF cs) (flattenF rest))
      | none =>
        rw [hcs] at hfind
        dsimp only at hfind
        have hcsa : containsIdF a cs = false := findWithSiblings_none a cs hcs
        rw [enterIdsBefore_flatten_append a cs hcsa (flattenF rest)] at hbef2
        simp only [List.mem_append] at hbef2
        push_neg at hbef2
        obtain ⟨hbids, hbrest⟩ := hbef2
        have hcsb : containsIdF b cs = false := by
          cases hcb : containsIdF b cs with
          | true => exact absurd ((mem_forestIds b cs).mpr hcb) hbids
          | false => rfl
        have hsub := ih2 start sibs hfind hnot hbrest
        simp only [flattenF, textsBefore, if_neg hib']
        rw [textsBefore_flatten_append b cs hcsb (flattenF rest)]
        exact hsub.trans (List.sublist_append_right _ _)

/-- C5 (amended): for every document and pair of anchors `a` strictly
before `b` in traversal order (no element with id `b` starts before the
element with id `a`), provided `b` is neither the start element itself
nor nested inside it, the text sequence returned by
`_extract_content_from_anchor` is a sublist of the text nodes appearing
strictly before the element with id `b` — so no content at or after `b`
is included, and a sibling containing `b` is excluded entirely.  When `b`
is nested inside the start element, the claim fails as stated (see the
counterexample): the whole start element's text, including content at and
after `b`, is returned. -/
theorem extract_excludes_next_anchor (doc : Forest) (a b : String)
    (start : Node) (sibs : Forest)
    (hb : b ≠ "")
    (hfind : findWithSiblings a doc = some (start, sibs))
    (hnotin : nodeHasId b start = false)
    (hbefore : b ∉ enterIdsBefore a (flattenF doc)) :
    List.Sublist (extractTextsFromAnchor doc a (some b)) (textsBefore b (flattenF doc)) := by
  unfold extractTextsFromAnchor
  rw [hfind]
  exact extract_before_next a b hb doc start sibs hfind hnotin hbefore

/-- Witness for C5 at a concrete input. -/
theorem extract_excludes_next_anchor_witness :
    (("B" : String) ≠ "") ∧
    (findWithSiblings "A" c5wDoc = some (c5wStart, c5wSibs)) ∧
    (nodeHasId "B" c5wStart = false) ∧
    ("B" ∉ enterIdsBefore "A" (flattenF c5wDoc)) ∧
    (List.Sublist (extractTextsFromAnchor c5wDoc "A" (some "B"))
      (textsBefore "B" (flattenF c5wDoc))) :=
  ⟨by decide, rfl, rfl, by decide,
    extract_excludes_next_anchor c5wDoc "A" "B" c5wStart c5wSibs (by decide) rfl rfl
      (by decide)⟩

/-- C5 counterexample: in `c5Doc` the anchor `A` comes strictly before
`B` in traversal order (no element with id `B` starts before `A`), yet
the extraction includes the text `y`, which appears at/inside the element
with id `B`: `start_elem.get_text()` collects the whole start element
before the sibling walk ever checks for the next anchor. -/
theorem extract_includes_nested_anchor :
    ("B" ∉ enterIdsBefore "A" (flattenF c5Doc)) ∧
    (containsIdF "B" c5Doc = true) ∧
    ("y" ∈ extractTextsFromAnchor c5Doc "A" (some "B")) ∧
    ("y" ∉ textsBefore "B" (flattenF c5Doc)) :=
  ⟨by decide, by decide, by decide, by decide⟩

/-! ## C10: section indices are 1..N in structural order -/

theorem entrySection_index (allEntries : List (Nat × TocEntry))
    (documents : List (String × Forest)) (tocIdx : Nat) (e : TocEntry) (i : Nat)
    (sec : Section) (h : entrySection allEntries documents tocIdx e i = some sec) :
    sec.index = i + 1 := by
  unfold entrySection at h
  split at h
  · simp at h
  · split at h
    · simp at h
    · split at h
      · dsimp only at h
        split at h
        · simp at h
        · simp only [Option.some.injEq] at h
          rw [← h]
      · dsimp only at h
        split at h
        · simp at h
        · simp only [Option.some.injEq] at h
          rw [← h]

theorem parseLoopGo_indices (allEntries : List (Nat × TocEntry))
    (documents : List (String × Forest)) (entries : List (Nat × TocEntry)) :
    ∀ sectionIdx : Nat,
      (parseLoopGo allEntries documents entries sectionIdx).map (fun s => s.index) =
        List.range' (sectionIdx + 1)
          (parseLoopGo allEntries documents entries sectionIdx).length := by
  induction entries with
  | nil => intro i; simp [parseLoopGo]
  | cons p rest ih =>
    intro i
    obtain ⟨tIdx, pe⟩ := p
    simp only [parseLoopGo]
    cases hes : entrySection allEntries documents tIdx pe i with
    | none => exact ih i
    | some sec =>
      simp only [List.map_cons, List.length_cons]
      rw [entrySection_index allEntries documents tIdx pe i sec hes, ih (i + 1),
        List.range'_succ]

theorem enumFrom_map_fst_succ {α : Type} (l : List α) :
    ∀ k : Nat, (List.enumFrom k l).map (fun p => p.1 + 1) = List.range' (k + 1) l.length := by
  induction l with
  | nil => intro k; simp
  | cons a t ih =>
    intro k
    simp only [List.enumFrom, List.map_cons, List.length_cons]
    rw [ih (k + 1), List.range'_succ]

theorem fallbackSections_indices (documents : List (String × Forest)) :
    (fallbackSections documents).map (fun s => s.index) =
      List.range' 1 (fallbackSections documents).length := by
  have h1 : (fallbackSections documents).map (fun s => s.index) =
      (documents.enum).map (fun p => p.1 + 1) := by
    unfold fallbackSections
    rw [List.map_map]
    rfl
  have h2 : (fallbackSections documents).length = documents.length := by
    unfold fallbackSections
    rw [List.length_map, List.enum_length]
  rw [h1, h2]
  exact enumFrom_map_fst_succ documents 0

/-- C10: for every parsed ePub (any flattened ToC and documents cache),
`parse_epub_sections` returns sections whose `index` fields are exactly
1, 2, ..., N in list order — contiguous and 1-based — whether the
sections come from the ToC loop (where front/back-matter titles, missing
documents and below-threshold extractions are skipped without consuming
an index) or from the file-based fallback. -/
theorem parseEpubSections_indices (tocEntries : List TocEntry)
    (documents : List (String × Forest)) :
    (parseEpubSections tocEntries documents).map (fun s => s.index) =
      List.range' 1 (parseEpubSections tocEntries documents).length := by
  unfold parseEpubSections
  cases ht : tocEntries.isEmpty with
  | true =>
    simp only [ht, if_true, List.isEmpty_nil, List.isEmpty_iff]
    exact fallbackSections_indices documents
  | false =>
    simp only [ht, if_false, Bool.false_eq_true]
    cases hs : (parseLoopGo tocEntries.enum documents tocEntries.enum 0).isEmpty with
    | true =>
      simp only [hs, if_true]
      exact fallbackSections_indices documents
    | false =>
      simp only [hs, Bool.false_eq_true, if_false]
      exact parseLoopGo_indices tocEntries.enum documents tocEntries.enum 0

/-! ## C7: a missing start anchor skips only that section -/

theorem extractContent_of_find_none {doc : Forest} {a : String} (na : Option String)
    (h : findWithSiblings a doc = none) : extractContentFromAnchor doc a na = "" := by
  unfold extractContentFromAnchor extractTextsFromAnchor
  rw [h]
  rfl

theorem parseLoopGo_skip (allEntries : List (Nat × TocEntry))
    (documents : List (String × Forest)) (tocIdx : Nat) (e : TocEntry)
    (hnone : ∀ i, entrySection allEntries documents tocIdx e i = none) :
    ∀ (pre post : List (Nat × TocEntry)) (sectionIdx : Nat),
      parseLoopGo allEntries documents (pre ++ (tocIdx, e) :: post) sectionIdx =
        parseLoopGo allEntries documents (pre ++ post) sectionIdx := by
  intro pre
  induction pre with
  | nil =>
    intro post i
    simp only [List.nil_append, parseLoopGo, hnone i]
  | cons p pre ih =>
    intro post i
    obtain ⟨tIdx, pe⟩ := p
    simp only [List.cons_append, parseLoopGo]
    cases hes : entrySection allEntries documents tIdx pe i with
    | none =>
      dsimp only
      exact ih post i
    | some sec =>
      dsimp only
      exact congrArg (sec :: .) (ih post (i + 1))

/-- C7: for every ToC entry whose start anchor is absent from the
referenced document, extraction yields no content (the empty string, for
any next anchor), and the parse of the full entry list equals the parse
with that entry removed — the section is excluded, no section index is
consumed, and every other section is produced unchanged; the missing
anchor never aborts the parse. -/
theorem missing_anchor_skips (allEntries : List (Nat × TocEntry))
    (documents : List (String × Forest)) (tocIdx : Nat) (e : TocEntry)
    (d : String × Forest)
    (hanch : e.anchor ≠ "")
    (hdoc : findDocument documents e.file = some d)
    (hmiss : findWithSiblings e.anchor d.2 = none) :
    (∀ na, extractTextsFromAnchor d.2 e.anchor na = []) ∧
    (∀ (pre post : List (Nat × TocEntry)) (sectionIdx : Nat),
      parseLoopGo allEntries documents (pre ++ (tocIdx, e) :: post) sectionIdx =
        parseLoopGo allEntries documents (pre ++ post) sectionIdx) := by
  have hext : ∀ na, extractTextsFromAnchor d.2 e.anchor na = [] := by
    intro na
    unfold extractTextsFromAnchor
    rw [hmiss]
  refine ⟨hext, ?_⟩
  apply parseLoopGo_skip
  intro i
  have hc := extractContent_of_find_none
    (nextAnchor (allEntries.filter (fun p => p.2.file == e.file)) tocIdx) hmiss
  simp [entrySection, hdoc, hanch, hc, wordsOf, splitWsGo]

/-- Witness for C7 at a concrete input. -/
theorem missing_anchor_skips_witness :
    (c7Entry.anchor ≠ "") ∧
    (findDocument [c7Doc] c7Entry.file = some c7Doc) ∧
    (findWithSiblings c7Entry.anchor c7Doc.2 = none) ∧
    ((∀ na, extractTextsFromAnchor c7Doc.2 c7Entry.anchor na = []) ∧
    (∀ (pre post : List (Nat × TocEntry)) (sectionIdx : Nat),
      parseLoopGo [(0, c7Entry)] [c7Doc] (pre ++ (0, c7Entry) :: post) sectionIdx =
        parseLoopGo [(0, c7Entry)] [c7Doc] (pre ++ post) sectionIdx)) :=
  ⟨by decide, rfl, rfl,
    missing_anchor_skips [(0, c7Entry)] [c7Doc] 0 c7Entry c7Doc
      (by decide) rfl rfl⟩

/-! ## C1: canonical chapter numbering -/

theorem sectionsToChaptersGo_numbers (selected : List Nat) (eh : Bool)
    (secs : List Section)
    (h : ∀ s ∈ secs, s.index ∈ selected →
      ¬(chapterText s eh = "" ∨ (pyStrip (chapterText s eh)).length < 50)) :
    ∀ n, (sectionsToChaptersGo selected eh secs n).map (fun c => c.number) =
      List.range' (n + 1) (sectionsToChaptersGo selected eh secs n).length := by
  induction secs with
  | nil => intro n; simp [sectionsToChaptersGo]
  | cons s rest ih =>
    intro n
    have hrest := fun s2 hs2 => h s2 (List.mem_cons_of_mem _ hs2)
    by_cases hsel : s.index ∈ selected
    · have hok := h s (by simp) hsel
      simp only [sectionsToChaptersGo, if_pos hsel, if_neg hok, List.map_cons,
        List.length_cons]
      rw [ih hrest (n + 1), List.range'_succ]
    · simp only [sectionsToChaptersGo, if_neg hsel]
      exact ih hrest n

/-- C1 (amended): applying `sections_to_chapters` to the full canonical
index list assigns chapter numbers equal to each chapter's 1-based
position among the selected sections, independent of any run's
sub-selection (the run selection is not an input of the numbering).  The
numbers are unique and form the contiguous range 1..N provided no
selected section is dropped by the post-assembly check — i.e. whenever
every selected section still has narration text of at least 50 characters
after heading removal.  (A selected section failing that check consumes
its number and leaves a gap, as the counterexample shows.) -/
theorem sectionsToChapters_numbers (sections : List Section) (selected : List Nat)
    (eh : Bool)
    (h : ∀ s ∈ sections, s.index ∈ selected →
      ¬(chapterText s eh = "" ∨ (pyStrip (chapterText s eh)).length < 50)) :
    (sectionsToChapters sections selected eh).map (fun c => c.number) =
      List.range' 1 (sectionsToChapters sections selected eh).length :=
  sectionsToChaptersGo_numbers selected eh sections h 0

/-- Witness for C1 at a concrete input. -/
theorem sectionsToChapters_numbers_witness :
    (sectionsToChapters [c1wSection] [1] false).map (fun c => c.number) =
      List.range' 1 (sectionsToChapters [c1wSection] [1] false).length :=
  sectionsToChapters_numbers [c1wSection] [1] false (by decide)

set_option maxRecDepth 40000 in
/-- C1 counterexample: for this parsed book, `sections_to_chapters` over
the full canonical index list increments `chapter_num` before the
50-character narration check, so the first canonical section (whose text
is all headings) consumes number 1 and is then dropped — the single
surviving chapter is numbered 2, not 1: the numbers are not the
contiguous range 1..N. -/
theorem sectionsToChapters_gap :
    c1Chapters.map (fun c => c.number) = [2] ∧
    c1Chapters.map (fun c => c.number) ≠ List.range' 1 c1Chapters.length := by
  constructor
  · decide
  · decide

/-- Witness for C4 at a concrete input. -/
theorem synthSegments_partition_witness :
    ((["Hi.", "There."] : List String) ≠ []) ∧
    ([9600].length = (chunkSentences ["Hi.", "There."]).length) ∧
    (synthSegments ["Hi.", "There."] [9600] ≠ [] ∧
    (∀ s, (synthSegments ["Hi.", "There."] [9600]).head? = some s → s.start = 0) ∧
    (∀ i s1 s2, (synthSegments ["Hi.", "There."] [9600]).get? i = some s1 →
      (synthSegments ["Hi.", "There."] [9600]).get? (i + 1) = some s2 →
      s2.start = s1.endTime) ∧
    (∀ s, (synthSegments ["Hi.", "There."] [9600]).getLast? = some s →
      s.endTime = audioDuration ([9600] : List Nat).sum) ∧
    (∀ s ∈ synthSegments ["Hi.", "There."] [9600], s.start ≤ s.endTime)) :=
  ⟨by decide, by decide,
    synthSegments_partition ["Hi.", "There."] [9600] (by decide) (by decide)⟩

end SageVox
